import Mathlib

/- Formal model of the flashback audio capture engine
   (src/services/audioService.js): the CircularAudioBuffer ring buffer, the
   AudioRecordingService capture state machine, and the WAV encoder
   samplesToWav.  Stateful JavaScript methods become pure state-passing
   functions; IEEE float samples are modelled as rationals (the engine only
   copies samples, clamps them to [-1, 1] and scales them by small integer
   constants, and all of those operations are exact on the float values the
   browser delivers, so the rational model is byte-faithful for the encoder);
   JavaScript DataView integer writes keep their wrap-around semantics via
   explicit div/mod by 256, 2^16 and 2^32. -/

/-- An audio sample (JS number holding a float32 value), modelled as ℚ. -/
abbrev Sample := ℚ

/-- Model of class CircularAudioBuffer: a fixed interleaved store of
maxSamples * channels sample slots plus a write cursor and a running count
of samples ever written. -/
structure CircularAudioBuffer where
  maxSamples : ℕ
  channels : ℕ
  buffer : List Sample
  writeIndex : ℕ
  samplesWritten : ℕ
  deriving DecidableEq

def channelValue (audioData : List (List Sample)) (channel i : ℕ) : Sample :=
  match audioData[channel]? with
  | some a => a.getD i 0
  | none => 0

/-- Buffer state produced by the constructor once maxSamples is known:
new Float32Array(maxSamples * channels) is zero filled, writeIndex = 0,
samplesWritten = 0. -/
def CircularAudioBuffer.fresh (maxSamples channels : ℕ) : CircularAudioBuffer :=
  { maxSamples := maxSamples
    channels := channels
    buffer := List.replicate (maxSamples * channels) 0
    writeIndex := 0
    samplesWritten := 0 }

/-- The constructor computes maxSamples = Math.ceil((durationMs / 1000) * sampleRate). -/
def CircularAudioBuffer.create (durationMs sampleRate channels : ℕ) : CircularAudioBuffer :=
  fresh ⌈((durationMs : ℚ) / 1000) * sampleRate⌉.toNat channels

/-- One iteration of the outer loop of addSamples: write sample i of every
channel at the interleaved slots (writeIndex * channels + channel) %
buffer.length, then advance writeIndex modulo maxSamples and bump
samplesWritten. -/
def CircularAudioBuffer.writeFrame (b : CircularAudioBuffer) (audioData : List (List Sample)) (i : ℕ) :
    CircularAudioBuffer :=
  { b with
    buffer := (List.range b.channels).foldl
      (fun arr channel =>
        arr.set ((b.writeIndex * b.channels + channel) % b.buffer.length)
          (channelValue audioData channel i)) b.buffer
    writeIndex := (b.writeIndex + 1) % b.maxSamples
    samplesWritten := b.samplesWritten + 1 }

/-- Method addSamples(audioData): numSamples is audioData[0].length and the
outer loop runs writeFrame for i = 0 .. numSamples - 1.  (The source would
throw on an empty audioData when reading audioData[0].length; the model reads
length 0 there, and no theorem below depends on that case.) -/
def CircularAudioBuffer.addSamples (b : CircularAudioBuffer) (audioData : List (List Sample)) :
    CircularAudioBuffer :=
  (List.range (audioData.headD []).length).foldl (fun acc i => writeFrame acc audioData i) b

/-- Method getSamples(): actualSamples = min(samplesWritten, maxSamples),
startIndex = writeIndex if samplesWritten >= maxSamples else 0, and the
result holds buffer[sourceIndex * channels + channel] at position
i * channels + channel with sourceIndex = (startIndex + i) % maxSamples. -/
def CircularAudioBuffer.getSamples (b : CircularAudioBuffer) : List Sample :=
  let actualSamples := min b.samplesWritten b.maxSamples
  let startIndex := if b.maxSamples ≤ b.samplesWritten then b.writeIndex else 0
  (List.range actualSamples).flatMap (fun i =>
    (List.range b.channels).map (fun channel =>
      b.buffer.getD (((startIndex + i) % b.maxSamples) * b.channels + channel) 0))

/-- Method clear(): buffer.fill(0), writeIndex = 0, samplesWritten = 0. -/
def CircularAudioBuffer.clear (b : CircularAudioBuffer) : CircularAudioBuffer :=
  { b with
    buffer := b.buffer.map (fun _ => 0)
    writeIndex := 0
    samplesWritten := 0 }

/-- Method getSampleCount(): min(samplesWritten, maxSamples). -/
def CircularAudioBuffer.getSampleCount (b : CircularAudioBuffer) : ℕ :=
  min b.samplesWritten b.maxSamples

/-- A buffer operation of the public ring-buffer interface: one addSamples
call or one clear call. -/
inductive BufferOp where
  | add (audioData : List (List Sample))
  | clear
  deriving DecidableEq

/-- Run one buffer operation. -/
def applyOp (b : CircularAudioBuffer) : BufferOp → CircularAudioBuffer
  | .add audioData => b.addSamples audioData
  | .clear => b.clear

/-- Run a sequence of buffer operations left to right. -/
def applyOps (b : CircularAudioBuffer) (ops : List BufferOp) : CircularAudioBuffer :=
  ops.foldl applyOp b

/-- The frame (one sample per channel) that iteration i of addSamples writes:
channel c receives channelValue audioData c i. -/
def frameOf (audioData : List (List Sample)) (channels i : ℕ) : List Sample :=
  (List.range channels).map (fun c => channelValue audioData c i)

/-- All frames that one addSamples call appends, in write order. -/
def framesOf (audioData : List (List Sample)) (channels : ℕ) : List (List Sample) :=
  (List.range (audioData.headD []).length).map (frameOf audioData channels)

/-- The chronological frame history produced by a sequence of operations:
every add appends its frames, clear forgets everything written so far. -/
def opsHistory (channels : ℕ) (ops : List BufferOp) : List (List Sample) :=
  ops.foldl
    (fun hs op =>
      match op with
      | .add audioData => hs ++ framesOf audioData channels
      | .clear => []) []

/-- Index of the most recent frame, among the first n frames written, that
landed in ring slot j; meaningful when j < n and j < maxSamples. -/
def lastWrite (n mx j : ℕ) : ℕ := n - 1 - (n - 1 - j) % mx

/-- Abstraction invariant tying a buffer state to the chronological list hs of
frames written since the buffer was created or last cleared: the counters
agree with hs, the store has its fixed allocated size, and every ring slot
holds the channel data of the most recent frame that was written to it. -/
def BufferInv (hs : List (List Sample)) (b : CircularAudioBuffer) : Prop :=
  b.samplesWritten = hs.length ∧
  b.writeIndex = hs.length % b.maxSamples ∧
  b.buffer.length = b.maxSamples * b.channels ∧
  ∀ j < b.maxSamples, ∀ c < b.channels,
    b.buffer.getD (j * b.channels + c) 0 =
      if j < hs.length then (hs.getD (lastWrite hs.length b.maxSamples j) []).getD c 0
      else 0

/-- JS Math.max on two numbers (NaN does not arise in this model). -/
def jsMax (a b : ℚ) : ℚ := if a ≤ b then b else a

/-- JS Math.min on two numbers. -/
def jsMin (a b : ℚ) : ℚ := if a ≤ b then a else b

/-- Truncation toward zero: the conversion ECMAScript applies to the float
argument of DataView.setInt16 (ToIntegerOrInfinity).  On a rational this is
T-division of the numerator by the denominator. -/
def jsTrunc (q : ℚ) : ℤ := q.num.tdiv q.den

/-- The per-sample conversion inside the samplesToWav write loop:
sample = Math.max(-1, Math.min(1, samples[i])), then setInt16 receives
sample < 0 ? sample * 0x8000 : sample * 0x7FFF and truncates it. -/
def floatToInt16 (s : Sample) : ℤ :=
  let sample := jsMax (-1) (jsMin 1 s)
  jsTrunc (if sample < 0 then sample * 32768 else sample * 32767)

/-- Little-endian byte pair stored by setInt16: the value is reduced mod 2^16
(nonnegative since the modulus is positive) and stored as an unsigned pair,
which is exactly the two-complement 16-bit encoding. -/
def int16ToBytesLE (v : ℤ) : List ℕ :=
  [(v % 65536).toNat % 256, (v % 65536).toNat / 256]

/-- Little-endian bytes stored by setUint16 (value mod 2^16). -/
def u16LE (v : ℕ) : List ℕ := [v % 256, v / 256 % 256]

/-- Little-endian bytes stored by setUint32 (value mod 2^32). -/
def u32LE (v : ℕ) : List ℕ :=
  [v % 256, v / 256 % 256, v / 65536 % 256, v / 16777216 % 256]

/-- Bytes of an ASCII tag written by the writeString helper via charCodeAt. -/
def asciiBytes (cs : List Char) : List ℕ := cs.map Char.toNat

/-- The 44 header bytes samplesToWav writes before the payload, in offset
order: RIFF tag (0), RIFF size 36 + dataLen (4), WAVE tag (8), fmt tag (12),
fmt chunk size 16 (16), PCM format 1 (20), channels (22), sampleRate (24),
byte rate (28), block align (32), bits per sample 16 (34), data tag (36),
data chunk size dataLen (40), where dataLen = samples.length * 2. -/
def wavHeaderBytes (dataLen sampleRate channels : ℕ) : List ℕ :=
  asciiBytes ['R', 'I', 'F', 'F'] ++
  u32LE (36 + dataLen) ++
  asciiBytes ['W', 'A', 'V', 'E'] ++
  asciiBytes ['f', 'm', 't', ' '] ++
  u32LE 16 ++
  u16LE 1 ++
  u16LE channels ++
  u32LE sampleRate ++
  u32LE (sampleRate * channels * 2) ++
  u16LE (channels * 2) ++
  u16LE 16 ++
  asciiBytes ['d', 'a', 't', 'a'] ++
  u32LE dataLen

/-- Method samplesToWav(samples, sampleRate, channels): the 44-byte header
written field by field at offsets 0..43, followed by the 16-bit PCM payload
at offset 44.  Concatenating the DataView writes in offset order reproduces
the ArrayBuffer layout byte for byte.  (The unused local
numSamples = samples.length / channels of the source is omitted.) -/
def samplesToWav (samples : List Sample) (sampleRate channels : ℕ) : List ℕ :=
  wavHeaderBytes (samples.length * 2) sampleRate channels ++
  samples.flatMap (fun s => int16ToBytesLE (floatToInt16 s))

/-- Read a little-endian 16-bit field at a byte offset. -/
def readU16LE (bytes : List ℕ) (off : ℕ) : ℕ :=
  bytes.getD off 0 + 256 * bytes.getD (off + 1) 0

/-- Read a little-endian 32-bit field at a byte offset. -/
def readU32LE (bytes : List ℕ) (off : ℕ) : ℕ :=
  bytes.getD off 0 + 256 * bytes.getD (off + 1) 0 +
  65536 * bytes.getD (off + 2) 0 + 16777216 * bytes.getD (off + 3) 0

/-- Interpret a little-endian byte pair as a signed 16-bit value. -/
def decodeInt16LE (b0 b1 : ℕ) : ℤ :=
  if b0 + 256 * b1 < 32768 then ((b0 + 256 * b1 : ℕ) : ℤ)
  else ((b0 + 256 * b1 : ℕ) : ℤ) - 65536

/-- Modelled from the claim wording, for comparison with the code: clamp s to
[-1, 1], then round (round half up, as JS Math.round does) the product
s * 32767 for s >= 0 and s * 32768 for s < 0. -/
def specRoundConvert (s : Sample) : ℤ :=
  let c := max (-1) (min 1 s)
  if 0 ≤ c then ⌊c * 32767 + 1 / 2⌋ else ⌊c * 32768 + 1 / 2⌋

/-- The conversion as the amended claim states it: clamp s to [-1, 1], then
truncate toward zero the product s * 32767 for s >= 0 and s * 32768 for
s < 0. -/
def specTruncConvert (s : Sample) : ℤ :=
  let c := max (-1) (min 1 s)
  if 0 ≤ c then ⌊c * 32767⌋ else -⌊-(c * 32768)⌋

/-- The error startCapture throws: Must start buffering before capturing. -/
inductive AudioError where
  | notBuffering
  deriving DecidableEq

/-- The object stopCapture resolves with (blob bytes, duration in
milliseconds, sample rate; the constant mimeType string is omitted). -/
structure RecordingResult where
  blob : List ℕ
  durationMs : ℚ
  sampleRate : ℕ
  deriving DecidableEq

/-- Mutable fields of AudioRecordingService that the capture engine touches.
The audioContext, stream and Web Audio nodes are device handles outside the
model; sampleRate stands for audioContext.sampleRate.  The MediaRecorder
fields are dead in the raw-PCM path and omitted. -/
structure AudioRecordingService where
  sampleRate : ℕ
  circularBuffer : CircularAudioBuffer
  recordedSamples : List (List (List Sample))
  isRecording : Bool
  isBuffering : Bool
  deriving DecidableEq

/-- The onaudioprocess handler installed by initializeWithScriptProcessor:
return early when neither buffering nor recording; add the channel data to
the circular buffer when buffering; push a clone of the channel data onto
recordedSamples when recording (cloning is the identity in a pure model). -/
def AudioRecordingService.onAudioProcess (s : AudioRecordingService) (channelData : List (List Sample)) :
    AudioRecordingService :=
  if !s.isBuffering && !s.isRecording then s
  else
    let s1 :=
      if s.isBuffering then
        { s with circularBuffer := s.circularBuffer.addSamples channelData }
      else s
    if s1.isRecording then { s1 with recordedSamples := s1.recordedSamples ++ [channelData] }
    else s1

/-- Method startBuffering(): sets isBuffering.  (The AudioContext null check
concerns the device handle outside this model, and the early return when
already buffering changes nothing.) -/
def AudioRecordingService.startBuffering (s : AudioRecordingService) : AudioRecordingService :=
  { s with isBuffering := true }

/-- Method stopBuffering(). -/
def AudioRecordingService.stopBuffering (s : AudioRecordingService) : AudioRecordingService :=
  { s with isBuffering := false }

/-- Method startCapture(): throws unless buffering, otherwise resets
recordedSamples to empty and sets isRecording. -/
def AudioRecordingService.startCapture (s : AudioRecordingService) : Except AudioError AudioRecordingService :=
  if !s.isBuffering then .error .notBuffering
  else .ok { s with recordedSamples := [], isRecording := true }

/-- The flattening loop of stopCapture: for each recorded sampleSet, push
sampleSet[channel][i] for i = 0 .. sampleSet[0].length - 1 and channel =
0 .. sampleSet.length - 1. -/
def AudioRecordingService.flattenRecorded (recorded : List (List (List Sample))) : List Sample :=
  recorded.flatMap (fun sampleSet =>
    (List.range (sampleSet.headD []).length).flatMap (fun i =>
      (List.range sampleSet.length).map (fun channel =>
        (sampleSet.getD channel []).getD i 0)))

/-- The combinedSamples value stopCapture builds: the circular buffer
snapshot, followed by the flattened recordedSamples when any exist. -/
def AudioRecordingService.splicedSamples (s : AudioRecordingService) : List Sample :=
  let bufferedSamples := s.circularBuffer.getSamples
  if s.recordedSamples.isEmpty then bufferedSamples
  else bufferedSamples ++ flattenRecorded s.recordedSamples

/-- Method stopCapture(), parameterized by the encoder so that the try/catch
around samplesToBlob is visible in the model: return null untouched when not
recording; otherwise clear isRecording, build combinedSamples, and either
return the empty-blob result (combined length 0) or encode — clearing
recordedSamples before returning and before re-raising an encoder error.
The 100 ms settle delay of the source only lets more onaudioprocess events
run and has no effect in this explicit-event model. -/
def AudioRecordingService.stopCaptureWith {ε : Type} (encode : List Sample → ℕ → ℕ → Except ε (List ℕ))
    (s : AudioRecordingService) :
    Except ε (Option RecordingResult) × AudioRecordingService :=
  if !s.isRecording then (.ok none, s)
  else
    let s1 := { s with isRecording := false }
    let combinedSamples := splicedSamples s1
    if combinedSamples.length = 0 then
      (.ok (some { blob := [], durationMs := 0, sampleRate := s1.sampleRate }),
       { s1 with recordedSamples := [] })
    else
      let durationMs := ((combinedSamples.length : ℚ) / 2) / (s1.sampleRate : ℚ) * 1000
      match encode combinedSamples s1.sampleRate 2 with
      | .ok blob =>
          (.ok (some { blob := blob, durationMs := durationMs, sampleRate := s1.sampleRate }),
           { s1 with recordedSamples := [] })
      | .error e => (.error e, { s1 with recordedSamples := [] })

/-- The encoder actually used: samplesToBlob delegates to samplesToWav, which
is total, so its error type is empty. -/
def AudioRecordingService.wavEncode : List Sample → ℕ → ℕ → Except Empty (List ℕ) :=
  fun samples sampleRate channels => .ok (samplesToWav samples sampleRate channels)

/-- Method stopCapture() as shipped: stopCaptureWith the WAV encoder. -/
def AudioRecordingService.stopCapture (s : AudioRecordingService) :
    Except Empty (Option RecordingResult) × AudioRecordingService :=
  stopCaptureWith wavEncode s

/-- DecidableEq for Except values, used to state concrete scenarios. -/
instance {e a : Type} [DecidableEq e] [DecidableEq a] : DecidableEq (Except e a) := fun x y =>
  match x, y with
  | .ok v, .ok w => if h : v = w then .isTrue (by simp [h]) else .isFalse (by simp [h])
  | .error v, .error w => if h : v = w then .isTrue (by simp [h]) else .isFalse (by simp [h])
  | .ok _, .error _ => .isFalse (by simp)
  | .error _, .ok _ => .isFalse (by simp)

/-- A service state as reached after initialize(): fresh capacity-3
single-sample-frame buffer, nothing recorded, idle. -/
def c1Service : AudioRecordingService :=
  { sampleRate := 48000
    circularBuffer := .fresh 3 1
    recordedSamples := []
    isRecording := false
    isBuffering := false }

/-- A service state captured mid-session: buffering and recording, with one
batch already in the session. -/
def capturingService : AudioRecordingService :=
  { sampleRate := 48000
    circularBuffer := .fresh 3 2
    recordedSamples := [[[1], [1]]]
    isRecording := true
    isBuffering := true }

/-- An initialized service that is buffering but not capturing. -/
def bufferingService : AudioRecordingService :=
  { sampleRate := 48000
    circularBuffer := .fresh 3 2
    recordedSamples := []
    isRecording := false
    isBuffering := true }

/-- An initialized service with buffering never started. -/
def idleService : AudioRecordingService :=
  { sampleRate := 48000
    circularBuffer := .fresh 3 2
    recordedSamples := []
    isRecording := false
    isBuffering := false }

/-- An encoder that always throws, to exercise the catch path. -/
def failingEncoder : List Sample → ℕ → ℕ → Except ℕ (List ℕ) := fun _ _ _ => .error 7

/-- A well-shaped batch: every present channel array has the batch length
(audioData[0].length), so no in-range read of a present array ever falls off
the end.  (In JS such a read would yield undefined, stored as NaN, which the
rational sample model cannot represent; the theorems below assume
well-shaped batches.) -/
def sameLengths (audioData : List (List Sample)) : Bool :=
  audioData.all (fun a => a.length == (audioData.headD []).length)

/-- A well-shaped buffer operation. -/
def opWf : BufferOp → Bool
  | .add audioData => sameLengths audioData
  | .clear => true

/-- All frames contributed by a sequence of addSamples batches, in order. -/
def framesOfBatches (batches : List (List (List Sample))) (channels : ℕ) :
    List (List Sample) :=
  batches.flatMap (fun batch => framesOf batch channels)

/-- The last k frames of a chronological history. -/
def lastFrames (frames : List (List Sample)) (k : ℕ) : List (List Sample) :=
  frames.drop (frames.length - k)

/-- Channel-interleaved flattening of a frame sequence (channel c of frame i
at position i * channels + c), the layout getSamples produces. -/
def interleave (channels : ℕ) (frames : List (List Sample)) : List Sample :=
  frames.flatMap (fun f => (List.range channels).map (fun c => f.getD c 0))

/-- The four bytes of a chunk tag at a byte offset. -/
def tagAt (w : List ℕ) (off : ℕ) : List ℕ :=
  [w.getD off 0, w.getD (off + 1) 0, w.getD (off + 2) 0, w.getD (off + 3) 0]

/-- A service mid-capture with an empty buffer and an empty session. -/
def emptyCaptureService : AudioRecordingService :=
  { sampleRate := 48000
    circularBuffer := .fresh 3 2
    recordedSamples := []
    isRecording := true
    isBuffering := true }

/-- The read audioData[channel] ? audioData[channel][i] : 0 in addSamples: a
missing channel array (JS undefined, which is falsy) contributes 0.  For a
present channel the source reads audioData[channel][i] unchecked; every
theorem below only ever evaluates that read in range (an in-range read of a
Float32Array), so the out-of-range default chosen here is never exercised. -/

theorem index_lt {j c mx ch : ℕ} (hj : j < mx) (hc : c < ch) :
    j * ch + c < mx * ch := by
  have h1 : (j + 1) * ch ≤ mx * ch := Nat.mul_le_mul_right ch hj
  have h2 : (j + 1) * ch = j * ch + ch := by ring
  omega

theorem lastWrite_lt {n mx j : ℕ} (hj : j < n) : lastWrite n mx j < n := by
  unfold lastWrite
  have h : (n - 1 - j) % mx ≤ n - 1 - j := Nat.mod_le _ _
  omega

theorem lastWrite_self {n mx : ℕ} : lastWrite (n + 1) mx (n % mx) = n := by
  have hd := Nat.div_add_mod n mx
  have h0 : n - n % mx = mx * (n / mx) := by omega
  have h1 : (n - n % mx) % mx = 0 := by rw [h0]; exact Nat.mul_mod_right mx (n / mx)
  show n + 1 - 1 - (n + 1 - 1 - n % mx) % mx = n
  simp only [Nat.add_sub_cancel]
  rw [h1]
  omega

theorem lastWrite_other {n mx j : ℕ} (hmx : 0 < mx) (hj : j < mx) (hjn : j < n)
    (hne : j ≠ n % mx) : lastWrite (n + 1) mx j = lastWrite n mx j := by
  have hmx1 : 1 < mx := by
    rcases Nat.lt_or_ge 1 mx with h | h
    · exact h
    · exfalso
      have hmx' : mx = 1 := by omega
      apply hne
      rw [hmx', Nat.mod_one]
      omega
  have hmod : (n - j) % mx ≠ 0 := by
    intro h0
    apply hne
    have hd : mx ∣ n - j := Nat.dvd_of_mod_eq_zero h0
    have hme : j ≡ n [MOD mx] := (Nat.modEq_iff_dvd' (le_of_lt hjn)).mpr hd
    have hjj : j % mx = j := Nat.mod_eq_of_lt hj
    calc j = j % mx := hjj.symm
      _ = n % mx := hme
  have ha : n - j = (n - 1 - j) + 1 := by omega
  show n + 1 - 1 - (n + 1 - 1 - j) % mx = lastWrite n mx j
  simp only [Nat.add_sub_cancel]
  rw [ha] at hmod
  unfold lastWrite
  have h2 : (n - 1 - j + 1) % mx = (n - 1 - j) % mx + 1 := by
    have h3 : (n - 1 - j + 1) % mx = ((n - 1 - j) % mx + 1 % mx) % mx := Nat.add_mod _ _ _
    rw [Nat.mod_eq_of_lt hmx1] at h3
    have hb : (n - 1 - j) % mx < mx := Nat.mod_lt _ hmx
    by_cases hc : (n - 1 - j) % mx + 1 < mx
    · rw [Nat.mod_eq_of_lt hc] at h3
      exact h3
    · exfalso
      apply hmod
      have hceq : (n - 1 - j) % mx + 1 = mx := by omega
      rw [hceq, Nat.mod_self] at h3
      exact h3
  rw [ha, h2]
  omega

/-- Arithmetic core of the full-buffer read: the slot that getSamples visits
at output frame i was last written by chronological frame n - mx + i. -/
theorem lastWrite_slot_full {n mx i : ℕ} (hmx : 0 < mx) (hge : mx ≤ n) (hi : i < mx) :
    lastWrite n mx ((n % mx + i) % mx) = n - mx + i := by
  set s := (n % mx + i) % mx with hs
  have hslt : s < mx := Nat.mod_lt _ hmx
  have hsn : s ≤ n - 1 := by omega
  have hseq : s = (n + i) % mx := by
    rw [hs]
    exact (Nat.mod_modEq n mx).add_right i
  have hdvd : mx ∣ n + i - s := by
    rw [hseq]
    have hd := Nat.div_add_mod (n + i) mx
    have : n + i - (n + i) % mx = mx * ((n + i) / mx) := by omega
    rw [this]
    exact Dvd.intro _ rfl
  obtain ⟨q, hq⟩ := hdvd
  have hq1 : 1 ≤ q := by
    rcases Nat.eq_zero_or_pos q with h0 | h1
    · exfalso; rw [h0, Nat.mul_zero] at hq; omega
    · exact h1
  have hmul : mx * q = mx * (q - 1) + mx := by
    have : q = (q - 1) + 1 := by omega
    rw [this, Nat.mul_add, Nat.mul_one]
    congr 1
  have hkey : n - 1 - s = mx * (q - 1) + (mx - 1 - i) := by
    have h1 : mx * (q - 1) + mx = n + i - s := by rw [← hmul, ← hq]
    omega
  unfold lastWrite
  rw [hkey, Nat.mul_add_mod, Nat.mod_eq_of_lt (by omega : mx - 1 - i < mx)]
  omega

/-- Arithmetic core of the not-yet-wrapped read: before the buffer wraps, the
slot that getSamples visits at output frame i is slot i itself. -/
theorem lastWrite_slot_nowrap {n mx i : ℕ} (hlt : n < mx) (hi : i < n) :
    lastWrite n mx (i % mx) = i := by
  have him : i % mx = i := Nat.mod_eq_of_lt (by omega)
  rw [him]
  unfold lastWrite
  rw [Nat.mod_eq_of_lt (by omega : n - 1 - i < mx)]
  omega

theorem foldl_set_length {α : Type} (cs : List ℕ) (g : ℕ → ℕ) (f : ℕ → α) (arr : List α) :
    (cs.foldl (fun a c => a.set (g c) (f c)) arr).length = arr.length := by
  induction cs generalizing arr with
  | nil => rfl
  | cons c cs ih => simp only [List.foldl_cons, ih, List.length_set]

theorem foldl_set_range_getElem? (f : ℕ → Sample) (arr : List Sample) (base ch k : ℕ) :
    ((List.range ch).foldl (fun a c => a.set (base + c) (f c)) arr)[k]? =
      if base ≤ k ∧ k < base + ch then (if k < arr.length then some (f (k - base)) else none)
      else arr[k]? := by
  induction ch with
  | zero =>
    simp only [List.range_zero, List.foldl_nil]
    have hc : ¬(base ≤ k ∧ k < base + 0) := by omega
    rw [if_neg hc]
  | succ ch ih =>
    rw [List.range_succ ch, List.foldl_append]
    simp only [List.foldl_cons, List.foldl_nil]
    rw [List.getElem?_set]
    by_cases hk : base + ch = k
    · subst hk
      have hlen : ((List.range ch).foldl (fun a c => a.set (base + c) (f c)) arr).length
          = arr.length := foldl_set_length _ _ _ _
      have hcond : base ≤ base + ch ∧ base + ch < base + (ch + 1) := by omega
      have hsub : base + ch - base = ch := by omega
      rw [if_pos rfl, hlen, if_pos hcond, hsub]
    · rw [if_neg hk, ih]
      by_cases hin : base ≤ k ∧ k < base + ch
      · have hin2 : base ≤ k ∧ k < base + (ch + 1) := by omega
        rw [if_pos hin, if_pos hin2]
      · have hin2 : ¬(base ≤ k ∧ k < base + (ch + 1)) := by omega
        rw [if_neg hin, if_neg hin2]

theorem writeFrame_maxSamples (b : CircularAudioBuffer) (audioData : List (List Sample))
    (i : ℕ) : (b.writeFrame audioData i).maxSamples = b.maxSamples := rfl

theorem writeFrame_channels (b : CircularAudioBuffer) (audioData : List (List Sample))
    (i : ℕ) : (b.writeFrame audioData i).channels = b.channels := rfl

theorem writeFrame_buffer_length (b : CircularAudioBuffer) (audioData : List (List Sample))
    (i : ℕ) : (b.writeFrame audioData i).buffer.length = b.buffer.length :=
  foldl_set_length _ _ _ _

theorem getD_append_left' {α : Type} (l l' : List α) (m : ℕ) (d : α) (h : m < l.length) :
    (l ++ l').getD m d = l.getD m d := by
  rw [List.getD_eq_getElem?_getD, List.getD_eq_getElem?_getD, List.getElem?_append_left h]

theorem getD_append_self {α : Type} (l : List α) (x : α) (d : α) :
    (l ++ [x]).getD l.length d = x := by
  rw [List.getD_eq_getElem?_getD, List.getElem?_append_right (le_refl _)]
  simp

theorem frameOf_getD {audioData : List (List Sample)} {ch i c : ℕ} (hc : c < ch) :
    (frameOf audioData ch i).getD c 0 = channelValue audioData c i := by
  unfold frameOf
  rw [List.getD_eq_getElem?_getD, List.getElem?_map]
  simp [List.getElem?_range, hc]

/-- One writeFrame call extends the abstraction: the frame it writes is
appended to the chronological history. -/
theorem bufferInv_step {hs : List (List Sample)} {b : CircularAudioBuffer}
    (hI : BufferInv hs b) (hmx : 0 < b.maxSamples)
    (audioData : List (List Sample)) (i : ℕ) :
    BufferInv (hs ++ [frameOf audioData b.channels i]) (b.writeFrame audioData i) := by
  obtain ⟨hsw, hwi, hlen, hslots⟩ := hI
  have hwilt : b.writeIndex < b.maxSamples := by rw [hwi]; exact Nat.mod_lt _ hmx
  have hlen' : (hs ++ [frameOf audioData b.channels i]).length = hs.length + 1 := by
    simp
  refine ⟨?_, ?_, ?_, ?_⟩
  · show b.samplesWritten + 1 = _
    rw [hlen', hsw]
  · show (b.writeIndex + 1) % b.maxSamples = _
    rw [hlen', hwi]
    show (hs.length % b.maxSamples + 1) % b.maxSamples = (hs.length + 1) % b.maxSamples
    exact (Nat.mod_modEq hs.length b.maxSamples).add_right 1
  · show (b.writeFrame audioData i).buffer.length = b.maxSamples * b.channels
    rw [writeFrame_buffer_length]
    exact hlen
  · intro j hj c hc
    rw [writeFrame_maxSamples] at hj
    rw [writeFrame_channels] at hc
    simp only [writeFrame_maxSamples, writeFrame_channels]
    have hfold : (b.writeFrame audioData i).buffer =
        (List.range b.channels).foldl
          (fun arr channel => arr.set (b.writeIndex * b.channels + channel)
            (channelValue audioData channel i)) b.buffer := by
      show (List.range b.channels).foldl _ b.buffer = _
      apply List.foldl_ext
      intro a x hx
      have hxlt : x < b.channels := List.mem_range.mp hx
      rw [hlen, Nat.mod_eq_of_lt (index_lt hwilt hxlt)]
    rw [hfold, List.getD_eq_getElem?_getD, foldl_set_range_getElem?]
    rw [hlen']
    by_cases hjw : j = b.writeIndex
    · subst hjw
      have hcond : b.writeIndex * b.channels ≤ b.writeIndex * b.channels + c ∧
          b.writeIndex * b.channels + c < b.writeIndex * b.channels + b.channels := by omega
      rw [if_pos hcond, if_pos (by rw [hlen]; exact index_lt hj hc)]
      have hsub : b.writeIndex * b.channels + c - b.writeIndex * b.channels = c := by omega
      rw [hsub]
      have hjlt : b.writeIndex < hs.length + 1 := by
        rw [hwi]
        have := Nat.mod_le hs.length b.maxSamples
        omega
      rw [if_pos hjlt, hwi, lastWrite_self, getD_append_self, frameOf_getD hc]
      rfl
    · have hcond : ¬(b.writeIndex * b.channels ≤ j * b.channels + c ∧
          j * b.channels + c < b.writeIndex * b.channels + b.channels) := by
        intro hcond
        rcases Nat.lt_trichotomy j b.writeIndex with hlt | heq | hgt
        · have h1 : (j + 1) * b.channels ≤ b.writeIndex * b.channels :=
            Nat.mul_le_mul_right _ hlt
          have h2 : (j + 1) * b.channels = j * b.channels + b.channels := by ring
          omega
        · exact hjw heq
        · have h1 : (b.writeIndex + 1) * b.channels ≤ j * b.channels :=
            Nat.mul_le_mul_right _ hgt
          have h2 : (b.writeIndex + 1) * b.channels = b.writeIndex * b.channels + b.channels := by
            ring
          omega
      rw [if_neg hcond, ← List.getD_eq_getElem?_getD, hslots j hj c hc]
      have hjwn : j ≠ hs.length % b.maxSamples := by rw [← hwi]; exact hjw
      by_cases hjn : j < hs.length
      · rw [if_pos hjn, if_pos (by omega : j < hs.length + 1)]
        rw [lastWrite_other hmx hj hjn hjwn]
        rw [getD_append_left' _ _ _ _ (lastWrite_lt hjn)]
      · have hje : ¬(j < hs.length + 1) := by
          intro hcontra
          have hjeq : j = hs.length := by omega
          apply hjwn
          rw [hjeq]
          exact (Nat.mod_eq_of_lt (by omega : hs.length < b.maxSamples)).symm
        rw [if_neg hjn, if_neg hje]

theorem bufferInv_fresh (mx ch : ℕ) : BufferInv [] (CircularAudioBuffer.fresh mx ch) := by
  refine ⟨rfl, rfl, by simp [CircularAudioBuffer.fresh], ?_⟩
  intro j hj c hc
  show (List.replicate (mx * ch) (0 : Sample)).getD (j * ch + c) 0 = _
  rw [List.getD_eq_getElem?_getD, List.getElem?_replicate]
  have hj2 : j < mx := hj
  have hc2 : c < ch := hc
  rw [if_pos (index_lt hj2 hc2)]
  simp

theorem bufferInv_clear {b : CircularAudioBuffer}
    (hlen : b.buffer.length = b.maxSamples * b.channels) : BufferInv [] b.clear := by
  refine ⟨rfl, rfl, by simp [CircularAudioBuffer.clear, hlen], ?_⟩
  intro j hj c hc
  show (b.buffer.map (fun _ => (0 : Sample))).getD (j * b.channels + c) 0 = _
  rw [List.getD_eq_getElem?_getD, List.getElem?_map]
  have hidx : j * b.channels + c < b.buffer.length := by
    rw [hlen]; exact index_lt hj hc
  rw [List.getElem?_eq_getElem hidx]
  simp

theorem foldl_writeFrame_maxSamples (l : List ℕ) (audioData : List (List Sample))
    (b : CircularAudioBuffer) :
    (l.foldl (fun acc i => acc.writeFrame audioData i) b).maxSamples = b.maxSamples := by
  induction l generalizing b with
  | nil => rfl
  | cons x xs ih => rw [List.foldl_cons, ih, writeFrame_maxSamples]

theorem foldl_writeFrame_channels (l : List ℕ) (audioData : List (List Sample))
    (b : CircularAudioBuffer) :
    (l.foldl (fun acc i => acc.writeFrame audioData i) b).channels = b.channels := by
  induction l generalizing b with
  | nil => rfl
  | cons x xs ih => rw [List.foldl_cons, ih, writeFrame_channels]

theorem addSamples_maxSamples (b : CircularAudioBuffer) (audioData : List (List Sample)) :
    (b.addSamples audioData).maxSamples = b.maxSamples :=
  foldl_writeFrame_maxSamples _ _ _

theorem addSamples_channels (b : CircularAudioBuffer) (audioData : List (List Sample)) :
    (b.addSamples audioData).channels = b.channels :=
  foldl_writeFrame_channels _ _ _

/-- One addSamples call extends the abstraction by the frames of its batch. -/
theorem bufferInv_addSamples {hs : List (List Sample)} {b : CircularAudioBuffer}
    (hI : BufferInv hs b) (hmx : 0 < b.maxSamples) (audioData : List (List Sample)) :
    BufferInv (hs ++ framesOf audioData b.channels) (b.addSamples audioData) := by
  unfold CircularAudioBuffer.addSamples framesOf
  generalize (audioData.headD []).length = m
  induction m with
  | zero => simpa using hI
  | succ m ih =>
    rw [List.range_succ m, List.foldl_append, List.map_append, List.foldl_cons, List.foldl_nil]
    have hch : ((List.range m).foldl (fun acc i => acc.writeFrame audioData i) b).channels
        = b.channels := foldl_writeFrame_channels _ _ _
    have hmx2 : 0 < ((List.range m).foldl (fun acc i => acc.writeFrame audioData i) b).maxSamples := by
      rw [foldl_writeFrame_maxSamples]; exact hmx
    have hstep := bufferInv_step ih hmx2 audioData m
    rw [hch] at hstep
    rw [List.append_assoc] at hstep
    simpa using hstep

theorem flatMap_congr {α β : Type} {l : List α} {f g : α → List β}
    (h : ∀ x ∈ l, f x = g x) : l.flatMap f = l.flatMap g := by
  induction l with
  | nil => rfl
  | cons x xs ih =>
    simp only [List.flatMap_cons]
    rw [h x (by simp), ih (fun y hy => h y (by simp [hy]))]

theorem flatMap_map' {α β γ : Type} (l : List α) (g : α → β) (F : β → List γ) :
    (l.map g).flatMap F = l.flatMap (fun x => F (g x)) := by
  induction l with
  | nil => rfl
  | cons x xs ih => simp only [List.map_cons, List.flatMap_cons, ih]

theorem drop_eq_map_getD (l : List (List Sample)) (m : ℕ) (hm : m ≤ l.length) :
    l.drop m = (List.range (l.length - m)).map (fun i => l.getD (m + i) []) := by
  apply List.ext_getElem?
  intro i
  rw [List.getElem?_drop, List.getElem?_map]
  by_cases hi : i < l.length - m
  · rw [List.getElem?_range hi]
    have him : m + i < l.length := by omega
    rw [List.getElem?_eq_getElem him]
    have hgd : l.getD (m + i) [] = l[m + i] := List.getD_eq_getElem l [] him
    show some l[m + i] = some (l.getD (m + i) [])
    rw [hgd]
  · have h1 : (List.range (l.length - m))[i]? = none := by
      apply List.getElem?_eq_none
      rw [List.length_range]
      omega
    have h2 : l[m + i]? = none := by
      apply List.getElem?_eq_none
      omega
    rw [h1, h2]
    rfl

/-- Characterization of getSamples: it returns exactly the last
min(samplesWritten, maxSamples) frames of the chronological history, in
order, flattened channel-interleaved. -/
theorem getSamples_eq {hs : List (List Sample)} {b : CircularAudioBuffer}
    (hI : BufferInv hs b) (hmx : 0 < b.maxSamples) :
    b.getSamples = (hs.drop (hs.length - min hs.length b.maxSamples)).flatMap
      (fun f => (List.range b.channels).map (fun c => f.getD c 0)) := by
  obtain ⟨hsw, hwi, hlen, hslots⟩ := hI
  have hk : min hs.length b.maxSamples ≤ hs.length := Nat.min_le_left _ _
  rw [drop_eq_map_getD _ _ (by omega : hs.length - min hs.length b.maxSamples ≤ hs.length)]
  have hlen2 : hs.length - (hs.length - min hs.length b.maxSamples)
      = min hs.length b.maxSamples := by omega
  rw [hlen2, flatMap_map']
  show (List.range (min b.samplesWritten b.maxSamples)).flatMap
      (fun i => (List.range b.channels).map (fun c =>
        b.buffer.getD ((((if b.maxSamples ≤ b.samplesWritten then b.writeIndex else 0) + i)
          % b.maxSamples) * b.channels + c) 0)) = _
  rw [hsw]
  rcases le_or_lt b.maxSamples hs.length with hge | hlt
  · rw [if_pos hge]
    have hkmx : min hs.length b.maxSamples = b.maxSamples := min_eq_right hge
    rw [hkmx]
    apply flatMap_congr
    intro i hi
    have hik : i < b.maxSamples := List.mem_range.mp hi
    apply List.map_congr_left
    intro c hc
    have hcc : c < b.channels := List.mem_range.mp hc
    have hjlt : (b.writeIndex + i) % b.maxSamples < b.maxSamples := Nat.mod_lt _ hmx
    rw [hslots _ hjlt c hcc]
    rw [if_pos (by omega : (b.writeIndex + i) % b.maxSamples < hs.length)]
    rw [hwi, lastWrite_slot_full hmx hge hik]
  · rw [if_neg (by omega)]
    have hkn : min hs.length b.maxSamples = hs.length := min_eq_left (le_of_lt hlt)
    rw [hkn]
    apply flatMap_congr
    intro i hi
    have hik : i < hs.length := List.mem_range.mp hi
    apply List.map_congr_left
    intro c hc
    have hcc : c < b.channels := List.mem_range.mp hc
    have hjlt : (0 + i) % b.maxSamples < b.maxSamples := Nat.mod_lt _ hmx
    rw [hslots _ hjlt c hcc]
    rw [Nat.zero_add]
    rw [if_pos (by rw [Nat.mod_eq_of_lt (by omega : i < b.maxSamples)]; exact hik)]
    rw [lastWrite_slot_nowrap hlt hik]
    have : hs.length - hs.length + i = i := by omega
    rw [this]

theorem applyOp_maxSamples (b : CircularAudioBuffer) (op : BufferOp) :
    (applyOp b op).maxSamples = b.maxSamples := by
  cases op with
  | add audioData => exact addSamples_maxSamples b audioData
  | clear => rfl

theorem applyOp_channels (b : CircularAudioBuffer) (op : BufferOp) :
    (applyOp b op).channels = b.channels := by
  cases op with
  | add audioData => exact addSamples_channels b audioData
  | clear => rfl

theorem bufferInv_foldl_ops (ch : ℕ) (ops : List BufferOp) :
    ∀ (b : CircularAudioBuffer) (hs : List (List Sample)), b.channels = ch →
      BufferInv hs b → 0 < b.maxSamples →
      BufferInv
        (ops.foldl
          (fun h op => match op with
            | .add audioData => h ++ framesOf audioData ch
            | .clear => []) hs)
        (ops.foldl applyOp b) := by
  induction ops with
  | nil =>
    intro b hs hch hI hmx
    exact hI
  | cons op ops ih =>
    intro b hs hch hI hmx
    rw [List.foldl_cons, List.foldl_cons]
    apply ih (applyOp b op)
    · rw [applyOp_channels, hch]
    · cases op with
      | add audioData =>
        have h := bufferInv_addSamples hI hmx audioData
        rw [hch] at h
        exact h
      | clear => exact bufferInv_clear hI.2.2.1
    · rw [applyOp_maxSamples]
      exact hmx

/-- Every state reached from a fresh buffer by addSamples and clear calls is
abstracted by the chronological history of frames since the last clear. -/
theorem bufferInv_ops (mx ch : ℕ) (hmx : 0 < mx) (ops : List BufferOp) :
    BufferInv (opsHistory ch ops) (applyOps (CircularAudioBuffer.fresh mx ch) ops) :=
  bufferInv_foldl_ops ch ops (CircularAudioBuffer.fresh mx ch) [] rfl (bufferInv_fresh mx ch) hmx

theorem jsMax_eq (a b : ℚ) : jsMax a b = max a b := (max_def a b).symm

theorem jsMin_eq (a b : ℚ) : jsMin a b = min a b := (min_def a b).symm

theorem jsTrunc_of_nonneg {q : ℚ} (h : 0 ≤ q) : jsTrunc q = ⌊q⌋ := by
  unfold jsTrunc
  rw [Rat.floor_def]
  exact Int.tdiv_eq_ediv (Rat.num_nonneg.mpr h) (Int.ofNat_nonneg q.den)

theorem jsTrunc_of_neg {q : ℚ} (h : q < 0) : jsTrunc q = -⌊-q⌋ := by
  have hnum : q.num < 0 := by
    by_contra hc
    push_neg at hc
    exact absurd (Rat.num_nonneg.mp hc) (not_le.mpr h)
  unfold jsTrunc
  rw [Rat.floor_def, Rat.neg_num, Rat.neg_den]
  have h1 : q.num.tdiv q.den = -((-q.num).tdiv q.den) := by
    rw [Int.neg_tdiv, neg_neg]
  rw [h1, Int.tdiv_eq_ediv (by omega) (Int.ofNat_nonneg q.den)]

/-- C1: the splice at the failing input.  With a capacity-3 one-sample-frame
buffer pre-filled with frames 1,2,3 while buffering, startCapture succeeds,
frames 4 and 5 then arrive through the ingestion path (which writes them both
to the ring buffer and to the capture session), and the sequence stopCapture
splices is 3,4,5,4,5: frames 4 and 5 are duplicated across the splice point
and pre-trigger frames 1 and 2 were evicted, so the claimed result 1,2,3,4,5
is not produced. -/
theorem splice_duplicates_capture_frames :
    ((c1Service.startBuffering.onAudioProcess [[1, 2, 3]]).startCapture.map
      (fun s => ((s.onAudioProcess [[4]]).onAudioProcess [[5]]).splicedSamples)) =
      .ok [3, 4, 5, 4, 5] ∧
    (Except.ok [3, 4, 5, 4, 5] : Except AudioError (List Sample)) ≠ .ok [1, 2, 3, 4, 5] := by
  exact ⟨by decide, by decide⟩

/-- C6 counterexample: a startCapture call made while a capture session is
already active (buffering still on, isRecording true, session nonempty) is
not rejected — it succeeds, silently discarding the session in progress and
restarting with an empty one. -/
theorem startCapture_while_capturing_accepted :
    capturingService.startCapture =
      .ok { capturingService with recordedSamples := [] } ∧
    capturingService.startCapture ≠ .error .notBuffering := by
  exact ⟨by decide, by decide⟩

/-- C6 amended: startCapture fails with the buffering-required error exactly
when buffering is inactive; whenever buffering is active — including while a
capture session is already running — it succeeds and resets the session, so
a concurrent startCapture silently restarts the session instead of being
rejected. -/
theorem startCapture_guard (s : AudioRecordingService) :
    (s.isBuffering = false → s.startCapture = .error .notBuffering) ∧
    (s.isBuffering = true →
      s.startCapture = .ok { s with recordedSamples := [], isRecording := true }) := by
  constructor <;> intro h <;> simp [AudioRecordingService.startCapture, h]

theorem startCapture_guard_witness :
    idleService.startCapture = .error .notBuffering ∧
    capturingService.startCapture =
      .ok { capturingService with recordedSamples := [], isRecording := true } :=
  ⟨(startCapture_guard idleService).1 rfl, (startCapture_guard capturingService).2 rfl⟩

/-- C7: stopCapture when no capture is active returns null and leaves the
whole service state — ring buffer contents, writeIndex, samplesWritten
(framesWritten) and the buffering flag — exactly unchanged. -/
theorem stopCapture_idle_noop (s : AudioRecordingService) (h : s.isRecording = false) :
    s.stopCapture = (.ok none, s) := by
  simp [AudioRecordingService.stopCapture, AudioRecordingService.stopCaptureWith, h]

theorem stopCapture_idle_noop_witness :
    bufferingService.isRecording = false ∧
    bufferingService.stopCapture = (.ok none, bufferingService) :=
  ⟨rfl, stopCapture_idle_noop bufferingService rfl⟩

/-- C10: whenever stopCapture runs with a capture active it consumes the
session: on return recordedSamples is empty and isRecording is false, for
every encoder outcome — and when the encoder throws, the error is re-raised
after the session is cleared, never swallowed. -/
theorem stopCapture_consumes_session {ε : Type}
    (encode : List Sample → ℕ → ℕ → Except ε (List ℕ))
    (s : AudioRecordingService) (h : s.isRecording = true) :
    (AudioRecordingService.stopCaptureWith encode s).2.recordedSamples = [] ∧
    (AudioRecordingService.stopCaptureWith encode s).2.isRecording = false ∧
    (∀ e, AudioRecordingService.splicedSamples { s with isRecording := false } ≠ [] →
      encode (AudioRecordingService.splicedSamples { s with isRecording := false })
        s.sampleRate 2 = .error e →
      (AudioRecordingService.stopCaptureWith encode s).1 = .error e) := by
  unfold AudioRecordingService.stopCaptureWith
  rw [h]
  simp only [Bool.not_true, Bool.false_eq_true, if_false]
  by_cases hb :
      (AudioRecordingService.splicedSamples { s with isRecording := false }).length = 0
  · rw [if_pos hb]
    refine ⟨rfl, rfl, ?_⟩
    intro e hne _
    exact absurd (List.length_eq_zero.mp hb) hne
  · rw [if_neg hb]
    rcases henc : encode (AudioRecordingService.splicedSamples { s with isRecording := false })
        s.sampleRate 2 with e | blob
    · exact ⟨rfl, rfl, fun e2 _ he2 => by cases he2; rfl⟩
    · refine ⟨rfl, rfl, ?_⟩
      intro e2 _ he2
      simp at he2

theorem stopCapture_consumes_session_witness :
    (AudioRecordingService.stopCaptureWith failingEncoder capturingService).2.recordedSamples
      = [] ∧
    (AudioRecordingService.stopCaptureWith failingEncoder capturingService).2.isRecording
      = false ∧
    (AudioRecordingService.stopCaptureWith failingEncoder capturingService).1 = .error 7 := by
  obtain ⟨h1, h2, h3⟩ := stopCapture_consumes_session failingEncoder capturingService rfl
  exact ⟨h1, h2, h3 7 (by decide) rfl⟩

theorem opsHistory_adds_aux (channels : ℕ) (batches : List (List (List Sample)))
    (init : List (List Sample)) :
    (batches.map BufferOp.add).foldl
      (fun hs op => match op with
        | BufferOp.add audioData => hs ++ framesOf audioData channels
        | BufferOp.clear => []) init = init ++ framesOfBatches batches channels := by
  induction batches generalizing init with
  | nil => simp [framesOfBatches]
  | cons x xs ih =>
    simp only [List.map_cons, List.foldl_cons]
    rw [ih]
    simp [framesOfBatches, List.append_assoc]

theorem opsHistory_adds (channels : ℕ) (batches : List (List (List Sample))) :
    opsHistory channels (batches.map BufferOp.add) = framesOfBatches batches channels := by
  unfold opsHistory
  rw [opsHistory_adds_aux]
  simp

theorem applyOps_maxSamples (ops : List BufferOp) (b : CircularAudioBuffer) :
    (applyOps b ops).maxSamples = b.maxSamples := by
  unfold applyOps
  induction ops generalizing b with
  | nil => rfl
  | cons op ops ih => rw [List.foldl_cons, ih, applyOp_maxSamples]

theorem applyOps_channels (ops : List BufferOp) (b : CircularAudioBuffer) :
    (applyOps b ops).channels = b.channels := by
  unfold applyOps
  induction ops generalizing b with
  | nil => rfl
  | cons op ops ih => rw [List.foldl_cons, ih, applyOp_channels]

theorem interleave_length (channels : ℕ) (frames : List (List Sample)) :
    (interleave channels frames).length = frames.length * channels := by
  unfold interleave
  induction frames with
  | nil => simp
  | cons f fs ih =>
    simp only [List.flatMap_cons, List.length_append, List.length_map, List.length_range,
      List.length_cons, ih]
    ring

/-- C5: for every sequence of addSamples calls on a fresh ring buffer of
positive capacity, with well-shaped batches, getSamples returns exactly
min(totalFramesAdded, maxFrames) frames — and they are the most recent
frames in the true chronological order they were added, channel-interleaved. -/
theorem snapshot_chronological (maxFrames channels : ℕ)
    (batches : List (List (List Sample))) (hmax : 0 < maxFrames)
    (_hwf : ∀ batch ∈ batches, sameLengths batch = true) :
    (applyOps (.fresh maxFrames channels) (batches.map BufferOp.add)).getSamples.length =
      min (framesOfBatches batches channels).length maxFrames * channels ∧
    (applyOps (.fresh maxFrames channels) (batches.map BufferOp.add)).getSamples =
      interleave channels (lastFrames (framesOfBatches batches channels)
        (min (framesOfBatches batches channels).length maxFrames)) := by
  have hinv := bufferInv_ops maxFrames channels hmax (batches.map .add)
  rw [opsHistory_adds] at hinv
  have hbm : (applyOps (.fresh maxFrames channels) (batches.map BufferOp.add)).maxSamples
      = maxFrames := applyOps_maxSamples _ _
  have hbc : (applyOps (.fresh maxFrames channels) (batches.map BufferOp.add)).channels
      = channels := applyOps_channels _ _
  have heq := getSamples_eq hinv (by rw [hbm]; exact hmax)
  rw [hbm, hbc] at heq
  constructor
  · rw [heq]
    show (interleave channels (lastFrames (framesOfBatches batches channels) _)).length = _
    rw [interleave_length]
    unfold lastFrames
    rw [List.length_drop]
    have hmin : min (framesOfBatches batches channels).length maxFrames
        ≤ (framesOfBatches batches channels).length := Nat.min_le_left _ _
    congr 1
    omega
  · exact heq

theorem snapshot_chronological_witness :
    (applyOps (.fresh 4 1) ([[[1, 2, 3, 4, 5, 6]]].map BufferOp.add)).getSamples
      = [3, 4, 5, 6] := by
  have h := (snapshot_chronological 4 1 [[[1, 2, 3, 4, 5, 6]]] (by decide) (by decide)).2
  exact h.trans (by decide)

/-- C8: after any sequence of addSamples and clear operations on a fresh
buffer of positive capacity (well-shaped batches), samplesWritten minus
writeIndex is a multiple of the capacity — equivalently writeIndex equals
samplesWritten mod maxFrames — and getSamples reconstructs the chronological
tail of the history written since the last clear (the read starts at slot
writeIndex once samplesWritten has reached the capacity, at slot 0 before
that, which is exactly the startIndex rule of getSamples). -/
theorem ring_buffer_invariant (maxFrames channels : ℕ) (ops : List BufferOp)
    (hmax : 0 < maxFrames) (_hwf : ∀ op ∈ ops, opWf op = true) :
    (applyOps (.fresh maxFrames channels) ops).writeIndex =
      (applyOps (.fresh maxFrames channels) ops).samplesWritten % maxFrames ∧
    (∃ q, (applyOps (.fresh maxFrames channels) ops).samplesWritten -
      (applyOps (.fresh maxFrames channels) ops).writeIndex = maxFrames * q) ∧
    (applyOps (.fresh maxFrames channels) ops).getSamples =
      interleave channels (lastFrames (opsHistory channels ops)
        (min (opsHistory channels ops).length maxFrames)) := by
  have hinv := bufferInv_ops maxFrames channels hmax ops
  have hbm : (applyOps (.fresh maxFrames channels) ops).maxSamples = maxFrames :=
    applyOps_maxSamples _ _
  have hbc : (applyOps (.fresh maxFrames channels) ops).channels = channels :=
    applyOps_channels _ _
  have heq := getSamples_eq hinv (by rw [hbm]; exact hmax)
  rw [hbm, hbc] at heq
  obtain ⟨hsw, hwi, _, _⟩ := hinv
  rw [hbm] at hwi
  refine ⟨?_, ?_, heq⟩
  · rw [hwi, hsw]
  · rw [hwi, hsw]
    refine ⟨(opsHistory channels ops).length / maxFrames, ?_⟩
    have hd := Nat.div_add_mod (opsHistory channels ops).length maxFrames
    omega

theorem ring_buffer_invariant_witness :
    (applyOps (.fresh 3 1) [BufferOp.add [[1, 2]], BufferOp.clear,
        BufferOp.add [[4, 5, 6, 7]]]).writeIndex = 1 ∧
    (applyOps (.fresh 3 1) [BufferOp.add [[1, 2]], BufferOp.clear,
        BufferOp.add [[4, 5, 6, 7]]]).samplesWritten = 4 ∧
    (applyOps (.fresh 3 1) [BufferOp.add [[1, 2]], BufferOp.clear,
        BufferOp.add [[4, 5, 6, 7]]]).getSamples = [5, 6, 7] := by
  have h := (ring_buffer_invariant 3 1 [BufferOp.add [[1, 2]], BufferOp.clear,
    BufferOp.add [[4, 5, 6, 7]]] (by decide) (by decide)).2.2
  exact ⟨by decide, by decide, h.trans (by decide)⟩

theorem map_range_getD {α : Type} (n i : ℕ) (g : ℕ → α) (d : α) (hi : i < n) :
    ((List.range n).map g).getD i d = g i := by
  rw [List.getD_eq_getElem?_getD, List.getElem?_map, List.getElem?_range hi]
  rfl

theorem getD_append_right_len {α : Type} (l1 l2 : List α) (k : ℕ) (d : α) :
    (l1 ++ l2).getD (l1.length + k) d = l2.getD k d := by
  rw [List.getD_eq_getElem?_getD, List.getElem?_append_right (by omega),
    Nat.add_sub_cancel_left, ← List.getD_eq_getElem?_getD]

theorem flatMap_getD_of_length {α β : Type} (l : List α) (F : α → List β) (m : ℕ)
    (hm : ∀ x, (F x).length = m) (dflt : α) (d : β) (i j : ℕ)
    (hi : i < l.length) (hj : j < m) :
    (l.flatMap F).getD (i * m + j) d = (F (l.getD i dflt)).getD j d := by
  induction l generalizing i with
  | nil => simp at hi
  | cons x xs ih =>
    rw [List.flatMap_cons]
    cases i with
    | zero =>
      simp only [Nat.zero_mul, Nat.zero_add]
      rw [getD_append_left' _ _ _ _ (by rw [hm]; exact hj)]
      rfl
    | succ i =>
      have hidx : (i + 1) * m + j = (F x).length + (i * m + j) := by rw [hm]; ring
      rw [hidx, getD_append_right_len, List.getD_cons_succ]
      have hi2 : i < xs.length := by
        rw [List.length_cons] at hi
        omega
      exact ih i hi2

theorem foldl_writeFrame_buffer_length (l : List ℕ) (audioData : List (List Sample))
    (b : CircularAudioBuffer) :
    (l.foldl (fun acc i => acc.writeFrame audioData i) b).buffer.length = b.buffer.length := by
  induction l generalizing b with
  | nil => rfl
  | cons x xs ih => rw [List.foldl_cons, ih, writeFrame_buffer_length]

theorem addSamples_buffer_length (b : CircularAudioBuffer)
    (audioData : List (List Sample)) :
    (b.addSamples audioData).buffer.length = b.buffer.length :=
  foldl_writeFrame_buffer_length _ _ _

/-- C9: addSamples never writes outside the fixed pre-allocated store — the
store length is invariant for every batch and every buffer state — and when
a batch carries fewer per-channel arrays than the buffer channel count, the
interleaved slots of the missing channels are written as 0 (the JS undefined
channel read is falsy), as getSamples then shows at every frame. -/
theorem addSamples_missing_channels (maxFrames channels : ℕ)
    (audioData : List (List Sample)) (hmax : 0 < maxFrames)
    (_hwf : sameLengths audioData = true)
    (hn : (audioData.headD []).length ≤ maxFrames) :
    (∀ b : CircularAudioBuffer, (b.addSamples audioData).buffer.length = b.buffer.length) ∧
    (∀ i c, i < (audioData.headD []).length → c < channels → audioData[c]? = none →
      ((CircularAudioBuffer.fresh maxFrames channels).addSamples audioData).getSamples.getD
        (i * channels + c) 0 = 0) := by
  constructor
  · intro b
    exact addSamples_buffer_length b audioData
  · intro i c hi hc hnone
    have hchf : (CircularAudioBuffer.fresh maxFrames channels).channels = channels := rfl
    have hmxf : (CircularAudioBuffer.fresh maxFrames channels).maxSamples = maxFrames := rfl
    have hinv := bufferInv_addSamples
      (bufferInv_fresh maxFrames channels)
      (show (0 : ℕ) < (CircularAudioBuffer.fresh maxFrames channels).maxSamples from hmax)
      audioData
    rw [List.nil_append, hchf] at hinv
    have heq := getSamples_eq hinv
      (by rw [addSamples_maxSamples]; exact hmax)
    rw [addSamples_maxSamples,
      addSamples_channels, hchf, hmxf] at heq
    have hlenf : (framesOf audioData channels).length = (audioData.headD []).length := by
      unfold framesOf
      rw [List.length_map, List.length_range]
    have hmin : min (framesOf audioData channels).length maxFrames
        = (framesOf audioData channels).length := by
      apply min_eq_left
      rw [hlenf]
      exact hn
    rw [hmin, Nat.sub_self, List.drop_zero] at heq
    rw [heq]
    have hF : ∀ f : List Sample,
        ((List.range channels).map (fun c => f.getD c 0)).length = channels := by
      intro f
      rw [List.length_map, List.length_range]
    rw [flatMap_getD_of_length _ _ channels hF [] 0 i c (by rw [hlenf]; exact hi) hc]
    rw [map_range_getD _ _ _ _ hc]
    have hfr : (framesOf audioData channels).getD i [] = frameOf audioData channels i := by
      unfold framesOf
      exact map_range_getD _ _ _ _ hi
    rw [hfr, frameOf_getD hc]
    unfold channelValue
    rw [hnone]

theorem addSamples_missing_channels_witness :
    ((CircularAudioBuffer.fresh 2 2).addSamples [[5, 6]]).buffer.length =
      (CircularAudioBuffer.fresh 2 2).buffer.length ∧
    ((CircularAudioBuffer.fresh 2 2).addSamples [[5, 6]]).getSamples.getD 1 0 = 0 := by
  obtain ⟨h1, h2⟩ := addSamples_missing_channels 2 2 [[5, 6]] (by decide) (by decide) (by decide)
  refine ⟨h1 _, ?_⟩
  have h := h2 0 1 (by decide) (by decide) (by decide)
  simpa using h

theorem wavHeaderBytes_length (dataLen sampleRate channels : ℕ) :
    (wavHeaderBytes dataLen sampleRate channels).length = 44 := rfl

theorem samplesToWav_getD_header (samples : List Sample) (sampleRate channels k : ℕ)
    (hk : k < 44) :
    (samplesToWav samples sampleRate channels).getD k 0 =
      (wavHeaderBytes (samples.length * 2) sampleRate channels).getD k 0 := by
  unfold samplesToWav
  exact getD_append_left' _ _ _ _
    (by rw [wavHeaderBytes_length]; exact hk)

theorem samplesToWav_getD_payload (samples : List Sample) (sampleRate channels k : ℕ) :
    (samplesToWav samples sampleRate channels).getD (44 + k) 0 =
      (samples.flatMap (fun s => int16ToBytesLE (floatToInt16 s))).getD k 0 := by
  unfold samplesToWav
  have h44 : (44 : ℕ) + k
      = (wavHeaderBytes (samples.length * 2) sampleRate channels).length + k := by
    rw [wavHeaderBytes_length]
  rw [h44, getD_append_right_len]

theorem samplesToWav_drop_44 (samples : List Sample) (sampleRate channels : ℕ) :
    (samplesToWav samples sampleRate channels).drop 44 =
      samples.flatMap (fun s => int16ToBytesLE (floatToInt16 s)) := by
  unfold samplesToWav
  conv_lhs => rw [show (44 : ℕ)
    = (wavHeaderBytes (samples.length * 2) sampleRate channels).length from rfl]
  exact List.drop_left _ _

theorem length_flatMap_const {α β : Type} (l : List α) (F : α → List β) (m : ℕ)
    (h : ∀ x, (F x).length = m) : (l.flatMap F).length = l.length * m := by
  induction l with
  | nil => simp
  | cons x xs ih =>
    simp [List.flatMap_cons, h, ih]
    ring

theorem samplesToWav_length (samples : List Sample) (sampleRate channels : ℕ) :
    (samplesToWav samples sampleRate channels).length = 44 + 2 * samples.length := by
  unfold samplesToWav
  rw [List.length_append, wavHeaderBytes_length,
    length_flatMap_const _ _ 2 (fun x => by simp [int16ToBytesLE])]
  ring

theorem u32_digits (v : ℕ) (h : v < 4294967296) :
    v % 256 + 256 * (v / 256 % 256) + 65536 * (v / 65536 % 256) +
      16777216 * (v / 16777216 % 256) = v := by
  omega

theorem u16_digits (v : ℕ) (h : v < 65536) :
    v % 256 + 256 * (v / 256 % 256) = v := by
  omega

set_option maxHeartbeats 1000000 in
/-- The header as one explicit 44-byte list (offsets 0..43). -/
theorem wavHeaderBytes_explicit (d sr ch : ℕ) :
    wavHeaderBytes d sr ch =
      [82, 73, 70, 70,
       (36 + d) % 256, (36 + d) / 256 % 256, (36 + d) / 65536 % 256, (36 + d) / 16777216 % 256,
       87, 65, 86, 69,
       102, 109, 116, 32,
       16, 0, 0, 0,
       1, 0,
       ch % 256, ch / 256 % 256,
       sr % 256, sr / 256 % 256, sr / 65536 % 256, sr / 16777216 % 256,
       sr * ch * 2 % 256, sr * ch * 2 / 256 % 256, sr * ch * 2 / 65536 % 256,
         sr * ch * 2 / 16777216 % 256,
       ch * 2 % 256, ch * 2 / 256 % 256,
       16, 0,
       100, 97, 116, 97,
       d % 256, d / 256 % 256, d / 65536 % 256, d / 16777216 % 256] := by
  simp [wavHeaderBytes, u32LE, u16LE, asciiBytes]

set_option maxHeartbeats 2000000 in
/-- C4: samplesToWav emits the fixed 44-byte header with chunk IDs RIFF,
WAVE, fmt and data, PCM format tag 1, little-endian sampleRate and channels
fields, byteRate = sampleRate * channels * 2, blockAlign = channels * 2,
bitsPerSample = 16, the data-chunk-size field exactly the 16-bit payload
length and the RIFF total-size field exactly 36 plus the payload length (the
value the RIFF format ties to the payload: total file size minus 8) — so
parsing the header recovers the exact sampleRate, channel count and data
size given as input. -/
theorem wav_header_fields (samples : List Sample) (sampleRate channels : ℕ)
    (hsr : sampleRate < 4294967296) (hch : channels < 32768)
    (hbr : sampleRate * channels * 2 < 4294967296)
    (hdl : 36 + 2 * samples.length < 4294967296) :
    (samplesToWav samples sampleRate channels).length = 44 + 2 * samples.length ∧
    tagAt (samplesToWav samples sampleRate channels) 0 = asciiBytes ['R', 'I', 'F', 'F'] ∧
    readU32LE (samplesToWav samples sampleRate channels) 4 = 36 + 2 * samples.length ∧
    tagAt (samplesToWav samples sampleRate channels) 8 = asciiBytes ['W', 'A', 'V', 'E'] ∧
    tagAt (samplesToWav samples sampleRate channels) 12 = asciiBytes ['f', 'm', 't', ' '] ∧
    readU32LE (samplesToWav samples sampleRate channels) 16 = 16 ∧
    readU16LE (samplesToWav samples sampleRate channels) 20 = 1 ∧
    readU16LE (samplesToWav samples sampleRate channels) 22 = channels ∧
    readU32LE (samplesToWav samples sampleRate channels) 24 = sampleRate ∧
    readU32LE (samplesToWav samples sampleRate channels) 28 = sampleRate * channels * 2 ∧
    readU16LE (samplesToWav samples sampleRate channels) 32 = channels * 2 ∧
    readU16LE (samplesToWav samples sampleRate channels) 34 = 16 ∧
    tagAt (samplesToWav samples sampleRate channels) 36 = asciiBytes ['d', 'a', 't', 'a'] ∧
    readU32LE (samplesToWav samples sampleRate channels) 40 = 2 * samples.length := by
  have hb : ∀ k, k < 44 → (samplesToWav samples sampleRate channels).getD k 0
      = (wavHeaderBytes (samples.length * 2) sampleRate channels).getD k 0 :=
    fun k hk => samplesToWav_getD_header samples sampleRate channels k hk
  have hexp := wavHeaderBytes_explicit (samples.length * 2) sampleRate channels
  simp only [hexp] at hb
  refine ⟨samplesToWav_length _ _ _, ?_, ?_, ?_, ?_, ?_, ?_, ?_, ?_, ?_, ?_, ?_, ?_, ?_⟩
  · unfold tagAt
    rw [hb 0 (by omega), hb 1 (by omega), hb 2 (by omega), hb 3 (by omega)]
    rfl
  · unfold readU32LE
    rw [hb 4 (by omega), hb 5 (by omega), hb 6 (by omega), hb 7 (by omega)]
    show (36 + samples.length * 2) % 256 + 256 * ((36 + samples.length * 2) / 256 % 256) +
      65536 * ((36 + samples.length * 2) / 65536 % 256) +
      16777216 * ((36 + samples.length * 2) / 16777216 % 256) = 36 + 2 * samples.length
    have hd := u32_digits (36 + samples.length * 2) (by omega)
    omega
  · unfold tagAt
    rw [hb 8 (by omega), hb 9 (by omega), hb 10 (by omega), hb 11 (by omega)]
    rfl
  · unfold tagAt
    rw [hb 12 (by omega), hb 13 (by omega), hb 14 (by omega), hb 15 (by omega)]
    rfl
  · unfold readU32LE
    rw [hb 16 (by omega), hb 17 (by omega), hb 18 (by omega), hb 19 (by omega)]
    rfl
  · unfold readU16LE
    rw [hb 20 (by omega), hb 21 (by omega)]
    rfl
  · unfold readU16LE
    rw [hb 22 (by omega), hb 23 (by omega)]
    show channels % 256 + 256 * (channels / 256 % 256) = channels
    exact u16_digits channels (by omega)
  · unfold readU32LE
    rw [hb 24 (by omega), hb 25 (by omega), hb 26 (by omega), hb 27 (by omega)]
    show sampleRate % 256 + 256 * (sampleRate / 256 % 256) +
      65536 * (sampleRate / 65536 % 256) + 16777216 * (sampleRate / 16777216 % 256)
      = sampleRate
    exact u32_digits sampleRate hsr
  · unfold readU32LE
    rw [hb 28 (by omega), hb 29 (by omega), hb 30 (by omega), hb 31 (by omega)]
    show sampleRate * channels * 2 % 256 + 256 * (sampleRate * channels * 2 / 256 % 256) +
      65536 * (sampleRate * channels * 2 / 65536 % 256) +
      16777216 * (sampleRate * channels * 2 / 16777216 % 256) = sampleRate * channels * 2
    exact u32_digits _ hbr
  · unfold readU16LE
    rw [hb 32 (by omega), hb 33 (by omega)]
    show channels * 2 % 256 + 256 * (channels * 2 / 256 % 256) = channels * 2
    exact u16_digits _ (by omega)
  · unfold readU16LE
    rw [hb 34 (by omega), hb 35 (by omega)]
    rfl
  · unfold tagAt
    rw [hb 36 (by omega), hb 37 (by omega), hb 38 (by omega), hb 39 (by omega)]
    rfl
  · unfold readU32LE
    rw [hb 40 (by omega), hb 41 (by omega), hb 42 (by omega), hb 43 (by omega)]
    show samples.length * 2 % 256 + 256 * (samples.length * 2 / 256 % 256) +
      65536 * (samples.length * 2 / 65536 % 256) +
      16777216 * (samples.length * 2 / 16777216 % 256) = 2 * samples.length
    have hd := u32_digits (samples.length * 2) (by omega)
    omega

set_option maxHeartbeats 1000000 in
theorem wav_header_fields_witness :
    readU32LE (samplesToWav [1, -1] 8000 2) 24 = 8000 ∧
    readU16LE (samplesToWav [1, -1] 8000 2) 22 = 2 ∧
    readU32LE (samplesToWav [1, -1] 8000 2) 40 = 4 ∧
    (samplesToWav [1, -1] 8000 2).length = 48 := by
  obtain ⟨hlen, _, _, _, _, _, _, hch, hsr, _, _, _, _, hdl⟩ :=
    wav_header_fields [1, -1] 8000 2 (by norm_num) (by norm_num) (by norm_num) (by norm_num)
  refine ⟨hsr, hch, ?_, ?_⟩
  · rw [hdl]
    rfl
  · rw [hlen]
    rfl

/-- C2 counterexample: stopCapture with a capture active and an empty
combined sequence returns (non-null) a result whose blob is the empty byte
string — 0 bytes, not a 44-byte header container with a zero data-size
field. -/
theorem stopCapture_empty_headerless :
    emptyCaptureService.stopCapture.1.map (Option.map (fun r => r.blob.length))
      = .ok (some 0) ∧
    (0 : ℕ) ≠ 44 := by
  exact ⟨by decide, by decide⟩

/-- C2 amended: with a capture active stopCapture never returns null — it
always resolves with a result — and samplesToWav on zero samples does
produce the valid 44-byte container whose data-size field is 0; but
stopCapture short-circuits an empty combined sequence, returning a result
whose blob is empty (0 bytes, headerless) instead of that container, while
for a nonempty combined sequence the blob is the full WAV encoding. -/
theorem stopCapture_zero_frames (sampleRate channels : ℕ) (s : AudioRecordingService)
    (h : s.isRecording = true) :
    ((samplesToWav [] sampleRate channels).length = 44 ∧
      readU32LE (samplesToWav [] sampleRate channels) 40 = 0) ∧
    (∃ r, s.stopCapture.1 = .ok (some r) ∧
      (AudioRecordingService.splicedSamples { s with isRecording := false } = [] →
        r.blob = []) ∧
      (AudioRecordingService.splicedSamples { s with isRecording := false } ≠ [] →
        r.blob = samplesToWav
          (AudioRecordingService.splicedSamples { s with isRecording := false })
          s.sampleRate 2)) := by
  constructor
  · constructor
    · rw [samplesToWav_length]
      rfl
    · unfold readU32LE
      rw [samplesToWav_getD_header _ _ _ _ (by omega),
        samplesToWav_getD_header _ _ _ _ (by omega),
        samplesToWav_getD_header _ _ _ _ (by omega),
        samplesToWav_getD_header _ _ _ _ (by omega), wavHeaderBytes_explicit]
      rfl
  · unfold AudioRecordingService.stopCapture AudioRecordingService.stopCaptureWith
    rw [h]
    simp only [Bool.not_true, Bool.false_eq_true, if_false]
    by_cases hb :
        (AudioRecordingService.splicedSamples { s with isRecording := false }).length = 0
    · rw [if_pos hb]
      exact ⟨_, rfl, fun _ => rfl,
        fun hne => absurd (List.length_eq_zero.mp hb) hne⟩
    · rw [if_neg hb]
      refine ⟨_, rfl, ?_, fun _ => rfl⟩
      intro hemp
      exact (hb (by rw [hemp]; rfl)).elim

theorem stopCapture_zero_frames_witness :
    (samplesToWav [] 48000 2).length = 44 ∧
    emptyCaptureService.stopCapture.1.map (Option.map (fun r => r.blob)) = .ok (some []) := by
  obtain ⟨⟨h1, _⟩, r, hr, hempty, _⟩ := stopCapture_zero_frames 48000 2 emptyCaptureService rfl
  refine ⟨h1, ?_⟩
  rw [hr]
  have hb := hempty (by decide)
  simp [Except.map, hb]

theorem floatToInt16_eq_spec (s : Sample) : floatToInt16 s = specTruncConvert s := by
  show jsTrunc (if jsMax (-1) (jsMin 1 s) < 0 then jsMax (-1) (jsMin 1 s) * 32768
      else jsMax (-1) (jsMin 1 s) * 32767) =
    (if 0 ≤ max (-1) (min 1 s) then ⌊max (-1) (min 1 s) * 32767⌋
      else -⌊-(max (-1) (min 1 s) * 32768)⌋)
  rw [jsMax_eq, jsMin_eq]
  by_cases h : max (-1) (min 1 s) < 0
  · rw [if_pos h, if_neg (not_le.mpr h)]
    exact jsTrunc_of_neg (mul_neg_of_neg_of_pos h (by norm_num))
  · push_neg at h
    rw [if_neg (not_lt.mpr h), if_pos h]
    exact jsTrunc_of_nonneg (mul_nonneg h (by norm_num))

theorem floatToInt16_bounds (s : Sample) :
    -32768 ≤ floatToInt16 s ∧ floatToInt16 s ≤ 32767 := by
  rw [floatToInt16_eq_spec]
  show -32768 ≤ (if 0 ≤ max (-1) (min 1 s) then ⌊max (-1) (min 1 s) * 32767⌋
      else -⌊-(max (-1) (min 1 s) * 32768)⌋) ∧
    (if 0 ≤ max (-1) (min 1 s) then ⌊max (-1) (min 1 s) * 32767⌋
      else -⌊-(max (-1) (min 1 s) * 32768)⌋) ≤ 32767
  have hc1 : (-1 : ℚ) ≤ max (-1) (min 1 s) := le_max_left _ _
  have hc2 : max (-1) (min 1 s) ≤ 1 := max_le (by norm_num) (min_le_left _ _)
  by_cases h : 0 ≤ max (-1) (min 1 s)
  · rw [if_pos h]
    have h1 : (0 : ℤ) ≤ ⌊max (-1) (min 1 s) * 32767⌋ := by
      apply Int.le_floor.mpr
      push_cast
      exact mul_nonneg h (by norm_num)
    have h2 : ⌊max (-1) (min 1 s) * 32767⌋ ≤ ⌊(32767 : ℚ)⌋ := by
      apply Int.floor_le_floor
      nlinarith
    have h3 : ⌊(32767 : ℚ)⌋ = 32767 := by norm_num
    omega
  · push_neg at h
    rw [if_neg (not_le.mpr h)]
    have h1 : (0 : ℤ) ≤ ⌊-(max (-1) (min 1 s) * 32768)⌋ := by
      apply Int.le_floor.mpr
      push_cast
      nlinarith
    have h2 : ⌊-(max (-1) (min 1 s) * 32768)⌋ ≤ ⌊(32768 : ℚ)⌋ := by
      apply Int.floor_le_floor
      nlinarith
    have h3 : ⌊(32768 : ℚ)⌋ = 32768 := by norm_num
    omega

theorem decode_encode_int16 (v : ℤ) (h1 : -32768 ≤ v) (h2 : v ≤ 32767) :
    decodeInt16LE ((int16ToBytesLE v).getD 0 0) ((int16ToBytesLE v).getD 1 0) = v := by
  unfold decodeInt16LE int16ToBytesLE
  simp only [List.getD_cons_zero, List.getD_cons_succ]
  split
  · omega
  · omega

/-- C3 counterexample: at input sample 1/2 (an exactly representable float),
the encoder produces trunc(0.5 * 32767) = 16383, stored little-endian as
bytes 255, 63 — while the claimed conversion round(0.5 * 32767) yields
16384: the code truncates toward zero, it does not round. -/
theorem sample_conversion_not_round :
    floatToInt16 (1 / 2) = 16383 ∧
    specRoundConvert (1 / 2) = 16384 ∧
    (samplesToWav [1 / 2] 48000 2).drop 44 = [255, 63] ∧
    (16383 : ℤ) ≠ 16384 := by
  have hclamp : jsMax (-1) (jsMin 1 ((1 : ℚ) / 2)) = 1 / 2 := by
    unfold jsMax jsMin
    rw [if_neg (by norm_num : ¬(1 : ℚ) ≤ 1 / 2), if_pos (by norm_num : (-1 : ℚ) ≤ 1 / 2)]
  have hval : floatToInt16 (1 / 2) = 16383 := by
    show jsTrunc (if jsMax (-1) (jsMin 1 ((1 : ℚ) / 2)) < 0
        then jsMax (-1) (jsMin 1 ((1 : ℚ) / 2)) * 32768
        else jsMax (-1) (jsMin 1 ((1 : ℚ) / 2)) * 32767) = 16383
    rw [hclamp, if_neg (by norm_num : ¬(1 : ℚ) / 2 < 0),
      jsTrunc_of_nonneg (by norm_num : (0 : ℚ) ≤ 1 / 2 * 32767)]
    norm_num
  refine ⟨hval, ?_, ?_, by norm_num⟩
  · show (if 0 ≤ max (-1) (min 1 ((1 : ℚ) / 2))
        then ⌊max (-1) (min 1 ((1 : ℚ) / 2)) * 32767 + 1 / 2⌋
        else ⌊max (-1) (min 1 ((1 : ℚ) / 2)) * 32768 + 1 / 2⌋) = 16384
    rw [min_eq_right (by norm_num : (1 : ℚ) / 2 ≤ 1),
      max_eq_right (by norm_num : (-1 : ℚ) ≤ 1 / 2),
      if_pos (by norm_num : (0 : ℚ) ≤ 1 / 2)]
    norm_num
  · rw [samplesToWav_drop_44]
    show int16ToBytesLE (floatToInt16 (1 / 2)) ++ [] = [255, 63]
    rw [hval]
    rfl

/-- C3 amended: for every float input sample s, the payload word the encoder
stores for s, read back as a little-endian signed 16-bit integer, equals the
conversion clamp(s, -1, 1) followed by truncation toward zero of the product
with 32767 (clamped value nonnegative) or 32768 (negative), i.e. the code
clamps and truncates — with the result stored little-endian at payload
offset 44 + 2i. -/
theorem sample_conversion_truncates (samples : List Sample) (sampleRate channels i : ℕ)
    (hi : i < samples.length) :
    decodeInt16LE ((samplesToWav samples sampleRate channels).getD (44 + (2 * i)) 0)
      ((samplesToWav samples sampleRate channels).getD (44 + (2 * i + 1)) 0) =
    specTruncConvert (samples.getD i 0) := by
  rw [samplesToWav_getD_payload, samplesToWav_getD_payload]
  have hm : ∀ x : Sample, (int16ToBytesLE (floatToInt16 x)).length = 2 := fun x => rfl
  have h0 : 2 * i = i * 2 + 0 := by ring
  have h1 : 2 * i + 1 = i * 2 + 1 := by ring
  rw [h1, h0, flatMap_getD_of_length _ _ 2 hm 0 0 i 0 hi (by omega),
    flatMap_getD_of_length _ _ 2 hm 0 0 i 1 hi (by omega)]
  obtain ⟨hb1, hb2⟩ := floatToInt16_bounds (samples.getD i 0)
  rw [decode_encode_int16 _ hb1 hb2]
  exact floatToInt16_eq_spec _

theorem sample_conversion_truncates_witness :
    decodeInt16LE ((samplesToWav [1 / 2] 48000 2).getD (44 + (2 * 0)) 0)
      ((samplesToWav [1 / 2] 48000 2).getD (44 + (2 * 0 + 1)) 0) =
      specTruncConvert (([1 / 2] : List Sample).getD 0 0) ∧
    specTruncConvert (([1 / 2] : List Sample).getD 0 0) = 16383 := by
  refine ⟨sample_conversion_truncates [1 / 2] 48000 2 0 (by norm_num), ?_⟩
  show (if 0 ≤ max (-1) (min 1 ((1 : ℚ) / 2))
      then ⌊max (-1) (min 1 ((1 : ℚ) / 2)) * 32767⌋
      else -⌊-(max (-1) (min 1 ((1 : ℚ) / 2)) * 32768)⌋) = 16383
  rw [min_eq_right (by norm_num : (1 : ℚ) / 2 ≤ 1),
    max_eq_right (by norm_num : (-1 : ℚ) ≤ 1 / 2),
    if_pos (by norm_num : (0 : ℚ) ≤ 1 / 2)]
  norm_num
